import Mathlib

/-!
Verification of the graph-construction core of the `gcn_package` repository
(`src/features/graph_construction.py`).

Matrices are embedded as a shallow structure `Mat` over the rationals: a pair
of dimensions plus an entry function.  Fallible operations (the Python
functions raise `ValueError`) are embedded in `Except String`.  Python/numpy
idioms are translated directly:

* `np.unique` counting           → `uniqueVals` (deduplicated value list);
* `(mat + mat.transpose())/2`    → entrywise `(entry i j + entry j i) / 2`;
* `np.ceil`                      → `Int.ceil` cast back to `ℚ`;
* `argsort` on a column + last `k+1` slice → stable sort of `(index, value)`
  pairs by value (ties by index) and `List.drop`;
* `np.quantile(_, q, axis)` with the default linear interpolation
  → `quantile` below;
* boolean masking / `np.fill_diagonal` → `if` expressions in entry functions.
-/

namespace GraphConstruction

/-- A dense 2-D numeric matrix: dimensions plus an entry function.
Entries outside `[0, rows) × [0, cols)` are irrelevant to every operation. -/
structure Mat where
  rows : ℕ
  cols : ℕ
  entry : ℕ → ℕ → ℚ

/-- The list of all in-range entries of `m`, row-major. -/
def entryList (m : Mat) : List ℚ :=
  (List.range m.rows).flatMap (fun i => (List.range m.cols).map (fun j => m.entry i j))

/-- The distinct values occurring in `m` (embeds `np.unique(mat)` as a set of
values; only its cardinality is ever used). -/
def uniqueVals (m : Mat) : List ℚ :=
  (entryList m).dedup

/-- Embedding of `make_undirected` (graph_construction.py, lines 5-30):
raise unless square; form `sym = (mat + mat.transpose())/2`; if the matrix has
exactly two distinct values return `np.ceil(sym)`, else return `sym`. -/
def make_undirected (mat : Mat) : Except String Mat :=
  if mat.rows ≠ mat.cols then
    Except.error "Adjacency matrix must be square."
  else if (uniqueVals mat).length = 2 then
    Except.ok ⟨mat.rows, mat.cols,
      fun i j => ((⌈(mat.entry i j + mat.entry j i) / 2⌉ : ℤ) : ℚ)⟩
  else
    Except.ok ⟨mat.rows, mat.cols, fun i j => (mat.entry i j + mat.entry j i) / 2⟩

/-- Insert into a list, placed before the first element `y` with `le x y`. -/
def insertAsc {α : Type} (le : α → α → Bool) (x : α) : List α → List α
  | [] => [x]
  | y :: ys => if le x y then x :: y :: ys else y :: insertAsc le x ys

/-- Insertion sort (ascending w.r.t. `le`). -/
def isort {α : Type} (le : α → α → Bool) : List α → List α
  | [] => []
  | x :: xs => insertAsc le x (isort le xs)

/-- Comparison used by `argsort`: by value ascending, ties by original index
ascending (a concrete total order realising numpy's unspecified tie-break). -/
def pairLe (a b : ℕ × ℚ) : Bool :=
  decide (a.2 < b.2 ∨ (a.2 = b.2 ∧ a.1 ≤ b.1))

/-- Embedding of `np.argsort` on a 1-D array: the indices of the elements in
ascending order of value. -/
def argsort (l : List ℚ) : List ℕ :=
  (isort pairLe l.enum).map Prod.fst

/-- Column `j` of `m` as a list (`m[:, j]`). -/
def colList (m : Mat) (j : ℕ) : List ℚ :=
  (List.range m.rows).map (fun r => m.entry r j)

/-- Row `i` of `m` as a list (`m[i, :]`). -/
def rowList (m : Mat) (i : ℕ) : List ℚ :=
  (List.range m.cols).map (fun c => m.entry i c)

/-- Entrywise absolute value (`np.abs(mat)`). -/
def absMat (m : Mat) : Mat :=
  ⟨m.rows, m.cols, fun i j => |m.entry i j|⟩

/-- The rows kept in column `j` by `knn_graph`'s mask: the last `k+1` entries
of `argsort(m[:, j])` (`sorted_ind[-(k + 1):]`). -/
def knnNeighbours (m : Mat) (k : ℕ) (j : ℕ) : List ℕ :=
  let s := argsort (colList m j)
  s.drop (s.length - (k + 1))

/-- The matrix `adj` of `knn_graph` after masking (`adj[~mask] = 0`) and the
optional diagonal zeroing (`np.fill_diagonal(adj, 0)` when not `selfloops`):
entry `(i,j)` keeps the ORIGINAL value `mat[i,j]` iff row `i` is among the
`k+1` kept rows of column `j` of `|mat|`. -/
def knnMasked (mat : Mat) (k : ℕ) (selfloops : Bool) : Mat :=
  ⟨mat.rows, mat.rows, fun i j =>
    if selfloops = false ∧ i = j then 0
    else if i ∈ knnNeighbours (absMat mat) k j then mat.entry i j else 0⟩

/-- Embedding of `knn_graph` (graph_construction.py, lines 33-83): raise
unless square and `1 ≤ k < n`; rank each column of `|mat|`, keep the top
`k+1` rows per column, mask the original matrix, optionally zero the
diagonal, optionally symmetrize via `make_undirected`. -/
def knn_graph (mat : Mat) (k : ℕ) (selfloops : Bool) (symmetric : Bool) :
    Except String Mat :=
  if mat.rows ≠ mat.cols then
    Except.error "Adjacency matrix must be square."
  else if k = 0 ∨ mat.rows ≤ k then
    Except.error "k must be in range [1,n_nodes)"
  else if symmetric then make_undirected (knnMasked mat k selfloops)
  else Except.ok (knnMasked mat k selfloops)

/-- Embedding of `np.quantile(a, q)` for a 1-D array with the default linear
interpolation: with `s` the sorted values and `h = q*(len-1)`, the result is
`s[⌊h⌋] + (h - ⌊h⌋) * (s[⌊h⌋+1] - s[⌊h⌋])`. -/
def quantile (l : List ℚ) (q : ℚ) : ℚ :=
  let s := isort (fun a b => decide (a ≤ b)) l
  let h : ℚ := q * ((l.length : ℚ) - 1)
  let lo : ℕ := (⌊h⌋).toNat
  let base : ℚ := s.getD lo 0
  base + (h - (lo : ℚ)) * (s.getD (lo + 1) base - base)

/-- `(mat == mat.transpose()).all()` over the in-range entries. -/
def isSymmetricOn (m : Mat) : Bool :=
  (List.range m.rows).all (fun i =>
    (List.range m.cols).all (fun j => decide (m.entry i j = m.entry j i)))

/-- The boolean `mask_not_neighbours[i, j]` of `knn_graph_quantile`.  With
`quantile_h = np.quantile(|mat|, q, axis=0)` (one value per column) the
comparison `mat < quantile_h[:, np.newaxis]` broadcasts `quantile_h` as a
column vector, so entry `(i,j)` is compared against `quantile_h[i]`, the
quantile of COLUMN `i`; in the directed case `quantile_v[np.newaxis, :]`
broadcasts the per-row quantiles as a row vector, comparing entry `(i,j)`
against `quantile_v[j]`, the quantile of ROW `j`, and the masks are
conjoined. -/
def quantileMaskBit (mat : Mat) (k : ℕ) (i j : ℕ) : Bool :=
  let a := absMat mat
  let q : ℚ := ((mat.rows : ℚ) - (k : ℚ) - 1) / (mat.rows : ℚ)
  if isSymmetricOn mat then
    decide (a.entry i j < quantile (colList a i) q)
  else
    decide (a.entry i j < quantile (colList a i) q) &&
      decide (a.entry i j < quantile (rowList a j) q)

/-- The matrix `adj` of `knn_graph_quantile` after masking and optional
diagonal zeroing.  Note `adj` is a copy of `np.abs(mat)`, so the surviving
entries are the ABSOLUTE values of the input. -/
def quantileMasked (mat : Mat) (self_loops : Bool) (k : ℕ) : Mat :=
  ⟨mat.rows, mat.rows, fun i j =>
    if self_loops = false ∧ i = j then 0
    else if quantileMaskBit mat k i j then 0 else |mat.entry i j|⟩

/-- Embedding of `knn_graph_quantile` (graph_construction.py, lines 126-154):
raise unless square and `1 ≤ k < n`; detect directedness; work on `|mat|`;
compute per-axis `(n-k-1)/n` quantiles and mask as in `quantileMaskBit`;
optionally zero the diagonal, optionally symmetrize. -/
def knn_graph_quantile (mat : Mat) (self_loops : Bool) (k : ℕ)
    (symmetric : Bool) : Except String Mat :=
  if mat.rows ≠ mat.cols then
    Except.error "Adjacency matrix must be square."
  else if k = 0 ∨ mat.rows ≤ k then
    Except.error "k must be in range [1,n_nodes)"
  else if symmetric then make_undirected (quantileMasked mat self_loops k)
  else Except.ok (quantileMasked mat self_loops k)

/-- Placeholder used for `connectomes[0]` on a list (claims only concern
non-empty collections, where it is never reached). -/
def defaultMat : Mat := ⟨0, 0, fun _ _ => 0⟩

/-- `np.array(connectomes).mean(axis=0)`: the entrywise mean, with the shape
taken from the first connectome (all are assumed same-shape). -/
def meanMat (cs : List Mat) : Mat :=
  ⟨(cs.headD defaultMat).rows, (cs.headD defaultMat).cols,
   fun i j => (cs.map (fun c => c.entry i j)).sum / (cs.length : ℚ)⟩

/-- Modelled from the spec: the conversion of the sparse adjacency matrix to
a graph object is performed by the external `networkx`/`torch_geometric`
libraries (`nx.convert_matrix.from_numpy_array`, `tg.utils.from_networkx`),
whose code is not part of this repository.  Per the spec, it enumerates the
nonzero entries as directed `(row, col)` pairs with a parallel edge-weight
sequence in the same order. -/
def toGraphObject (m : Mat) : List (ℕ × ℕ) × List ℚ :=
  let es := ((List.range m.rows).flatMap
      (fun i => (List.range m.cols).map (fun j => (i, j)))).filter
      (fun p => decide (m.entry p.1 p.2 ≠ 0))
  (es, es.map (fun p => m.entry p.1 p.2))

/-- Embedding of `make_group_graph` (graph_construction.py, lines 85-123):
raise unless the first connectome is square; average the collection; run
`knn_graph`; package the result as a graph object. -/
def make_group_graph (cs : List Mat) (k : ℕ) (selfloops : Bool)
    (symmetric : Bool) : Except String (List (ℕ × ℕ) × List ℚ) :=
  if (cs.headD defaultMat).rows ≠ (cs.headD defaultMat).cols then
    Except.error "Connectomes must be square."
  else
    (knn_graph (meanMat cs) k selfloops symmetric).map toGraphObject

/-! ### Concrete matrices used as witnesses and counterexamples -/

/-- A 4×4 binary matrix with the single asymmetric pair
`entry 0 1 = 1`, `entry 1 0 = 0` (claim C1's example). -/
def binaryM : Mat := ⟨4, 4, fun i j => if i = 0 ∧ j = 1 then 1 else 0⟩

/-- A 5×5 matrix (claim C8's example). -/
def mat5 : Mat := ⟨5, 5, fun i j => (i : ℚ) + (j : ℚ)⟩

/-- A 3×3 matrix with all entries nonzero on the index range. -/
def matNZ : Mat := ⟨3, 3, fun i j => if i = j then 9 else if i < j then 1 else 2⟩

/-- A symmetric 3×3 matrix whose columns have distinct quantile thresholds at
`q = 1/3`: columns `[9,1,2]`, `[1,9,3]`, `[2,3,9]` have thresholds `5/3`,
`7/3`, `8/3` respectively. -/
def matQ : Mat :=
  ⟨3, 3, fun i j =>
    if i = j then 9
    else if (i = 0 ∧ j = 1) ∨ (i = 1 ∧ j = 0) then 1
    else if (i = 0 ∧ j = 2) ∨ (i = 2 ∧ j = 0) then 2
    else if (i = 1 ∧ j = 2) ∨ (i = 2 ∧ j = 1) then 3
    else 0⟩

/-- A symmetric 3×3 matrix containing the negative entry `-5` at `(0,1)` and
`(1,0)`. -/
def matNeg : Mat :=
  ⟨3, 3, fun i j =>
    if (i = 0 ∧ j = 1) ∨ (i = 1 ∧ j = 0) then -5
    else if i = j then 0
    else 1⟩

/-- A 2×2 connectome for the group-graph witness. -/
def matG : Mat := ⟨2, 2, fun i j => (i : ℚ) + (j : ℚ) + 1⟩

/-! ### Basic lemmas -/

theorem make_undirected_ok (mat : Mat) (h : mat.rows = mat.cols) :
    make_undirected mat =
      Except.ok ⟨mat.rows, mat.cols, fun i j =>
        if (uniqueVals mat).length = 2 then
          ((⌈(mat.entry i j + mat.entry j i) / 2⌉ : ℤ) : ℚ)
        else (mat.entry i j + mat.entry j i) / 2⟩ := by
  unfold make_undirected
  rw [if_neg (by simp [h])]
  by_cases h2 : (uniqueVals mat).length = 2
  · rw [if_pos h2]
    simp only [if_pos h2]
  · rw [if_neg h2]
    simp only [if_neg h2]

theorem insertAsc_perm {α : Type} (le : α → α → Bool) (x : α) (l : List α) :
    List.Perm (insertAsc le x l) (x :: l) := by
  induction l with
  | nil => simp [insertAsc]
  | cons y ys ih =>
    simp only [insertAsc]
    split
    · exact List.Perm.refl _
    · exact (List.Perm.cons y ih).trans (List.Perm.swap x y ys)

theorem isort_perm {α : Type} (le : α → α → Bool) (l : List α) :
    List.Perm (isort le l) l := by
  induction l with
  | nil => simp [isort]
  | cons x xs ih =>
    exact (insertAsc_perm le x (isort le xs)).trans (List.Perm.cons x ih)

theorem argsort_perm (l : List ℚ) :
    List.Perm (argsort l) (List.range l.length) := by
  have h := (isort_perm pairLe l.enum).map Prod.fst
  rwa [List.enum_map_fst] at h

theorem argsort_length (l : List ℚ) : (argsort l).length = l.length :=
  (argsort_perm l).length_eq.trans (List.length_range l.length)

theorem argsort_nodup (l : List ℚ) : (argsort l).Nodup :=
  ((argsort_perm l).nodup_iff).mpr (List.nodup_range l.length)

theorem mem_argsort_lt (l : List ℚ) (i : ℕ) (h : i ∈ argsort l) :
    i < l.length := by
  have h2 := (argsort_perm l).mem_iff.mp h
  simpa using h2

theorem length_colList (m : Mat) (j : ℕ) : (colList m j).length = m.rows := by
  simp [colList]

theorem knnNeighbours_length (m : Mat) (k j : ℕ) (hk : k + 1 ≤ m.rows) :
    (knnNeighbours m k j).length = k + 1 := by
  simp only [knnNeighbours]
  rw [List.length_drop, argsort_length, length_colList]
  omega

theorem knnNeighbours_nodup (m : Mat) (k j : ℕ) :
    (knnNeighbours m k j).Nodup := by
  simp only [knnNeighbours]
  exact (List.drop_sublist _ _).nodup (argsort_nodup _)

theorem mem_knnNeighbours_lt (m : Mat) (k j i : ℕ)
    (h : i ∈ knnNeighbours m k j) : i < m.rows := by
  simp only [knnNeighbours] at h
  have h2 := mem_argsort_lt _ _ ((List.drop_sublist _ _).mem h)
  rwa [length_colList] at h2

theorem length_filter_mem (n : ℕ) (l : List ℕ) (hnd : l.Nodup)
    (hsub : ∀ x ∈ l, x < n) :
    ((List.range n).filter (fun i => decide (i ∈ l))).length = l.length := by
  have hperm : List.Perm ((List.range n).filter (fun i => decide (i ∈ l))) l := by
    rw [List.perm_ext_iff_of_nodup (List.Nodup.filter _ (List.nodup_range n)) hnd]
    intro a
    simp only [List.mem_filter, List.mem_range, decide_eq_true_eq]
    exact ⟨fun h => h.2, fun h => ⟨hsub a h, h⟩⟩
  exact hperm.length_eq

theorem knn_graph_eq_false (mat : Mat) (k : ℕ) (sl : Bool)
    (hsq : mat.rows = mat.cols) (hk1 : 1 ≤ k) (hk2 : k < mat.rows) :
    knn_graph mat k sl false = Except.ok (knnMasked mat k sl) := by
  unfold knn_graph
  rw [if_neg (by simp [hsq]), if_neg (by omega)]
  simp

theorem knn_graph_eq_true (mat : Mat) (k : ℕ) (sl : Bool)
    (hsq : mat.rows = mat.cols) (hk1 : 1 ≤ k) (hk2 : k < mat.rows) :
    knn_graph mat k sl true = make_undirected (knnMasked mat k sl) := by
  unfold knn_graph
  rw [if_neg (by simp [hsq]), if_neg (by omega)]
  simp

theorem knn_graph_quantile_eq_false (mat : Mat) (k : ℕ) (sl : Bool)
    (hsq : mat.rows = mat.cols) (hk1 : 1 ≤ k) (hk2 : k < mat.rows) :
    knn_graph_quantile mat sl k false = Except.ok (quantileMasked mat sl k) := by
  unfold knn_graph_quantile
  rw [if_neg (by simp [hsq]), if_neg (by omega)]
  simp

theorem knn_graph_quantile_eq_true (mat : Mat) (k : ℕ) (sl : Bool)
    (hsq : mat.rows = mat.cols) (hk1 : 1 ≤ k) (hk2 : k < mat.rows) :
    knn_graph_quantile mat sl k true = make_undirected (quantileMasked mat sl k) := by
  unfold knn_graph_quantile
  rw [if_neg (by simp [hsq]), if_neg (by omega)]
  simp

theorem knn_graph_exists (mat : Mat) (k : ℕ) (sl sym : Bool)
    (hsq : mat.rows = mat.cols) (hk1 : 1 ≤ k) (hk2 : k < mat.rows) :
    ∃ r, knn_graph mat k sl sym = Except.ok r := by
  cases sym
  · exact ⟨_, knn_graph_eq_false mat k sl hsq hk1 hk2⟩
  · exact ⟨_, (knn_graph_eq_true mat k sl hsq hk1 hk2).trans
      (make_undirected_ok (knnMasked mat k sl) rfl)⟩

theorem knn_graph_quantile_exists (mat : Mat) (k : ℕ) (sl sym : Bool)
    (hsq : mat.rows = mat.cols) (hk1 : 1 ≤ k) (hk2 : k < mat.rows) :
    ∃ r, knn_graph_quantile mat sl k sym = Except.ok r := by
  cases sym
  · exact ⟨_, knn_graph_quantile_eq_false mat k sl hsq hk1 hk2⟩
  · exact ⟨_, (knn_graph_quantile_eq_true mat k sl hsq hk1 hk2).trans
      (make_undirected_ok (quantileMasked mat sl k) rfl)⟩

/-! ### Claims -/

/-- Claim C5: for every square matrix, the Symmetrizer's output equals its
own transpose exactly, in both the ceiling branch and the plain-average
branch. -/
theorem C5_symmetrizer_symmetric (mat : Mat) (r : Mat)
    (h : make_undirected mat = Except.ok r) :
    ∀ i j, r.entry i j = r.entry j i := by
  unfold make_undirected at h
  by_cases hsq : mat.rows ≠ mat.cols
  · rw [if_pos hsq] at h
    exact absurd h (by simp)
  · rw [if_neg hsq] at h
    by_cases h2 : (uniqueVals mat).length = 2
    · rw [if_pos h2] at h
      cases h
      intro i j
      simp [add_comm]
    · rw [if_neg h2] at h
      cases h
      intro i j
      simp [add_comm]

/-- Witness for C5 at a concrete 2×2 matrix. -/
theorem C5_symmetrizer_symmetric_witness :
    ∃ r, make_undirected ⟨2, 2, fun i j => (i : ℚ) + 2 * j⟩ = Except.ok r ∧
      ∀ i j, r.entry i j = r.entry j i := by
  obtain ⟨r, hr⟩ :
      ∃ r, make_undirected ⟨2, 2, fun i j => (i : ℚ) + 2 * j⟩ = Except.ok r :=
    ⟨_, make_undirected_ok ⟨2, 2, fun i j => (i : ℚ) + 2 * j⟩ rfl⟩
  exact ⟨r, hr, C5_symmetrizer_symmetric _ r hr⟩

/-- Claim C9: every non-square 2-D input is rejected with the shape error by
the Symmetrizer, the Degree-Rank kNN Builder and the Quantile kNN Builder. -/
theorem C9_shape_rejection (mat : Mat) (h : mat.rows ≠ mat.cols)
    (k : ℕ) (sl sym : Bool) :
    make_undirected mat = Except.error "Adjacency matrix must be square." ∧
    knn_graph mat k sl sym = Except.error "Adjacency matrix must be square." ∧
    knn_graph_quantile mat sl k sym =
      Except.error "Adjacency matrix must be square." := by
  refine ⟨?_, ?_, ?_⟩ <;>
    simp [make_undirected, knn_graph, knn_graph_quantile, h]

/-- Witness for C9 at a concrete 3×4 matrix. -/
theorem C9_shape_rejection_witness :
    make_undirected ⟨3, 4, fun _ _ => 1⟩ =
      Except.error "Adjacency matrix must be square." ∧
    knn_graph ⟨3, 4, fun _ _ => 1⟩ 2 false true =
      Except.error "Adjacency matrix must be square." ∧
    knn_graph_quantile ⟨3, 4, fun _ _ => 1⟩ false 2 true =
      Except.error "Adjacency matrix must be square." :=
  C9_shape_rejection ⟨3, 4, fun _ _ => 1⟩ (by decide) 2 false true

/-- Claim C1: for every square matrix `M`, the Symmetrizer returns
`(M + Mᵀ)/2` when the number of distinct values of `M` is not exactly 2, and
the entrywise ceiling of `(M + Mᵀ)/2` when it is exactly 2; in particular,
for the binary 4×4 matrix with asymmetric pair `M[0,1]=1`, `M[1,0]=0`, both
output entries `[0,1]` and `[1,0]` are exactly 1. -/
theorem C1_symmetrizer_average (mat : Mat) (h : mat.rows = mat.cols) :
    ((uniqueVals mat).length ≠ 2 →
      make_undirected mat = Except.ok ⟨mat.rows, mat.cols,
        fun i j => (mat.entry i j + mat.entry j i) / 2⟩) ∧
    ((uniqueVals mat).length = 2 →
      make_undirected mat = Except.ok ⟨mat.rows, mat.cols,
        fun i j => ((⌈(mat.entry i j + mat.entry j i) / 2⌉ : ℤ) : ℚ)⟩) ∧
    (∃ r, make_undirected binaryM = Except.ok r ∧
      r.entry 0 1 = 1 ∧ r.entry 1 0 = 1) := by
  refine ⟨?_, ?_, ?_⟩
  · intro h2
    unfold make_undirected
    rw [if_neg (by simp [h]), if_neg h2]
  · intro h2
    unfold make_undirected
    rw [if_neg (by simp [h]), if_pos h2]
  · have h2 : (uniqueVals binaryM).length = 2 := by decide
    refine ⟨_, make_undirected_ok binaryM rfl, ?_, ?_⟩ <;>
    · dsimp only
      rw [if_pos h2]
      norm_num [binaryM, Int.ceil_eq_iff]

/-- Witness for C1 at the concrete binary matrix (which has exactly two
distinct values). -/
theorem C1_symmetrizer_average_witness :
    (uniqueVals binaryM).length = 2 ∧
    make_undirected binaryM = Except.ok ⟨binaryM.rows, binaryM.cols,
      fun i j => ((⌈(binaryM.entry i j + binaryM.entry j i) / 2⌉ : ℤ) : ℚ)⟩ ∧
    (∃ r, make_undirected binaryM = Except.ok r ∧
      r.entry 0 1 = 1 ∧ r.entry 1 0 = 1) :=
  ⟨by decide, (C1_symmetrizer_average binaryM rfl).2.1 (by decide),
    (C1_symmetrizer_average binaryM rfl).2.2⟩

/-- Claim C8: on an n×n matrix both kNN builders raise the range error when
`k ≤ 0` or `k ≥ n`, and succeed (no error) when `1 ≤ k ≤ n-1`. -/
theorem C8_range_rejection (mat : Mat) (h : mat.rows = mat.cols) (k : ℕ)
    (sl sym : Bool) :
    (k = 0 ∨ mat.rows ≤ k →
      knn_graph mat k sl sym = Except.error "k must be in range [1,n_nodes)" ∧
      knn_graph_quantile mat sl k sym =
        Except.error "k must be in range [1,n_nodes)") ∧
    (1 ≤ k → k < mat.rows →
      (∃ r, knn_graph mat k sl sym = Except.ok r) ∧
      (∃ r, knn_graph_quantile mat sl k sym = Except.ok r)) := by
  constructor
  · intro hk
    constructor
    · unfold knn_graph
      rw [if_neg (by simp [h]), if_pos hk]
    · unfold knn_graph_quantile
      rw [if_neg (by simp [h]), if_pos hk]
  · intro hk1 hk2
    exact ⟨knn_graph_exists mat k sl sym h hk1 hk2,
      knn_graph_quantile_exists mat k sl sym h hk1 hk2⟩

/-- Witness for C8 at the concrete 5×5 matrix: k = 0 and k = 5 fail, k = 4
succeeds, for both builders. -/
theorem C8_range_rejection_witness :
    (knn_graph mat5 0 false true =
        Except.error "k must be in range [1,n_nodes)" ∧
      knn_graph_quantile mat5 false 0 true =
        Except.error "k must be in range [1,n_nodes)") ∧
    (knn_graph mat5 5 false true =
        Except.error "k must be in range [1,n_nodes)" ∧
      knn_graph_quantile mat5 false 5 true =
        Except.error "k must be in range [1,n_nodes)") ∧
    ((∃ r, knn_graph mat5 4 false true = Except.ok r) ∧
      (∃ r, knn_graph_quantile mat5 false 4 true = Except.ok r)) :=
  ⟨(C8_range_rejection mat5 rfl 0 false true).1 (by decide),
    (C8_range_rejection mat5 rfl 5 false true).1 (by decide),
    (C8_range_rejection mat5 rfl 4 false true).2 (by decide) (by decide)⟩

/-- Claim C4: with `symmetric = False`, every entry of the Degree-Rank kNN
Builder's output is either 0 or exactly the corresponding original entry of
the input (sign and magnitude preserved). -/
theorem C4_knn_preserves_weights (mat : Mat) (k : ℕ) (sl : Bool) (r : Mat)
    (h : knn_graph mat k sl false = Except.ok r) :
    ∀ i j, r.entry i j = 0 ∨ r.entry i j = mat.entry i j := by
  unfold knn_graph at h
  split at h
  · exact absurd h (by simp)
  split at h
  · exact absurd h (by simp)
  simp only [Bool.false_eq_true, if_false] at h
  cases h
  intro i j
  simp only [knnMasked]
  split_ifs
  · exact Or.inl rfl
  · exact Or.inr rfl
  · exact Or.inl rfl

/-- Witness for C4 at a concrete 3×3 matrix with k = 1. -/
theorem C4_knn_preserves_weights_witness :
    knn_graph matNZ 1 true false = Except.ok (knnMasked matNZ 1 true) ∧
    ∀ i j, (knnMasked matNZ 1 true).entry i j = 0 ∨
      (knnMasked matNZ 1 true).entry i j = matNZ.entry i j := by
  have h := knn_graph_eq_false matNZ 1 true rfl (by decide) (by decide)
  exact ⟨h, C4_knn_preserves_weights matNZ 1 true _ h⟩

/-- Claim C7: with `selfloops = False`, both builders return a matrix whose
diagonal is all zero, for every setting of the symmetric flag (the zero
diagonal survives the symmetrization, including its ceiling branch). -/
theorem C7_selfloop_suppression (mat : Mat) (k : ℕ) (sym : Bool) (r s : Mat)
    (h1 : knn_graph mat k false sym = Except.ok r)
    (h2 : knn_graph_quantile mat false k sym = Except.ok s) :
    (∀ i, r.entry i i = 0) ∧ (∀ i, s.entry i i = 0) := by
  have hdiag : ∀ (m : Mat) (t : Mat), (∀ i, m.entry i i = 0) →
      make_undirected m = Except.ok t → ∀ i, t.entry i i = 0 := by
    intro m t hm hmk
    by_cases hsq : m.rows ≠ m.cols
    · rw [make_undirected, if_pos hsq] at hmk
      exact absurd hmk (by simp)
    · push_neg at hsq
      rw [make_undirected_ok m hsq] at hmk
      cases hmk
      intro i
      simp only []
      split
      · rw [hm i]
        norm_num
      · rw [hm i]
        norm_num
  have hknn : ∀ i, (knnMasked mat k false).entry i i = 0 := by
    intro i
    simp [knnMasked]
  have hqnt : ∀ i, (quantileMasked mat false k).entry i i = 0 := by
    intro i
    simp [quantileMasked]
  constructor
  · unfold knn_graph at h1
    split at h1
    · exact absurd h1 (by simp)
    split at h1
    · exact absurd h1 (by simp)
    split at h1
    · exact hdiag _ r hknn h1
    · cases h1
      exact hknn
  · unfold knn_graph_quantile at h2
    split at h2
    · exact absurd h2 (by simp)
    split at h2
    · exact absurd h2 (by simp)
    split at h2
    · exact hdiag _ s hqnt h2
    · cases h2
      exact hqnt

/-- Witness for C7 at a concrete 3×3 matrix with k = 1 and symmetrization
on. -/
theorem C7_selfloop_suppression_witness :
    ∃ r s, knn_graph matNZ 1 false true = Except.ok r ∧
      knn_graph_quantile matNZ false 1 true = Except.ok s ∧
      (∀ i, r.entry i i = 0) ∧ (∀ i, s.entry i i = 0) := by
  obtain ⟨r, hr⟩ := knn_graph_exists matNZ 1 false true rfl (by decide) (by decide)
  obtain ⟨s, hs⟩ :=
    knn_graph_quantile_exists matNZ 1 false true rfl (by decide) (by decide)
  obtain ⟨p1, p2⟩ := C7_selfloop_suppression matNZ 1 true r s hr hs
  exact ⟨r, s, hr, hs, p1, p2⟩

/-- Claim C2: for an n×n matrix with no zero entries and `1 ≤ k ≤ n-1`, the
Degree-Rank kNN Builder with `selfloops=True`, `symmetric=False` returns a
matrix in which every column has exactly `k+1` nonzero entries. -/
theorem C2_exact_degree (mat : Mat) (k : ℕ) (hsq : mat.rows = mat.cols)
    (hnz : ∀ i < mat.rows, ∀ j < mat.rows, mat.entry i j ≠ 0)
    (hk1 : 1 ≤ k) (hk2 : k < mat.rows) :
    ∃ r, knn_graph mat k true false = Except.ok r ∧
      ∀ j < mat.rows,
        ((List.range mat.rows).filter
          (fun i => decide (r.entry i j ≠ 0))).length = k + 1 := by
  refine ⟨_, knn_graph_eq_false mat k true hsq hk1 hk2, ?_⟩
  intro j hj
  have hfil : ((List.range mat.rows).filter
      (fun i => decide ((knnMasked mat k true).entry i j ≠ 0))) =
      ((List.range mat.rows).filter
      (fun i => decide (i ∈ knnNeighbours (absMat mat) k j))) := by
    apply List.filter_congr
    intro i hi
    rw [List.mem_range] at hi
    simp only [knnMasked, Bool.true_eq_false, false_and, if_false,
      decide_eq_decide]
    constructor
    · intro hne
      by_contra hmem
      rw [if_neg hmem] at hne
      exact hne rfl
    · intro hmem
      rw [if_pos hmem]
      exact hnz i hi j hj
  rw [hfil, length_filter_mem mat.rows (knnNeighbours (absMat mat) k j)
    (knnNeighbours_nodup _ _ _)
    (fun x hx => mem_knnNeighbours_lt (absMat mat) k j x hx),
    knnNeighbours_length (absMat mat) k j (by simp [absMat]; omega)]

/-- Witness for C2 at a concrete all-nonzero 3×3 matrix with k = 1. -/
theorem C2_exact_degree_witness :
    ∃ r, knn_graph matNZ 1 true false = Except.ok r ∧
      ∀ j < matNZ.rows,
        ((List.range matNZ.rows).filter
          (fun i => decide (r.entry i j ≠ 0))).length = 1 + 1 :=
  C2_exact_degree matNZ 1 rfl (by decide) (by decide) (by decide)

/-- Claim C10: with `symmetric=False` every nonzero entry of the Quantile
kNN Builder's output equals the ABSOLUTE value of the corresponding input
entry (never a negative value), unlike the Degree-Rank kNN Builder which
restores the original signed weights; the concrete conjuncts exhibit the
contrast at an input entry equal to `-5`. -/
theorem C10_quantile_absolute (mat : Mat) (k : ℕ) (sl : Bool) (r : Mat)
    (h : knn_graph_quantile mat sl k false = Except.ok r) :
    (∀ i j, r.entry i j = 0 ∨ r.entry i j = |mat.entry i j|) ∧
    (∀ i j, 0 ≤ r.entry i j) ∧
    (matNeg.entry 0 1 = -5 ∧
      knn_graph_quantile matNeg true 1 false =
        Except.ok (quantileMasked matNeg true 1) ∧
      (quantileMasked matNeg true 1).entry 0 1 = 5 ∧
      knn_graph matNeg 1 true false = Except.ok (knnMasked matNeg 1 true) ∧
      (knnMasked matNeg 1 true).entry 0 1 = -5) := by
  have hval : ∀ i j, r.entry i j = 0 ∨ r.entry i j = |mat.entry i j| := by
    unfold knn_graph_quantile at h
    split at h
    · exact absurd h (by simp)
    split at h
    · exact absurd h (by simp)
    simp only [Bool.false_eq_true, if_false] at h
    cases h
    intro i j
    simp only [quantileMasked]
    split_ifs
    · exact Or.inl rfl
    · exact Or.inl rfl
    · exact Or.inr rfl
  refine ⟨hval, ?_, ?_⟩
  · intro i j
    rcases hval i j with h0 | habs
    · rw [h0]
    · rw [habs]
      exact abs_nonneg _
  · have hsort : isort (fun a b => decide (a ≤ b)) [(0:ℚ), 5, 1] = [0, 1, 5] := by
      decide
    have hcol : colList (absMat matNeg) 0 = [0, 5, 1] := by decide
    have hbit : quantileMaskBit matNeg 1 0 1 = false := by
      have hsym : isSymmetricOn matNeg = true := by decide
      simp only [quantileMaskBit, hsym, if_true, hcol]
      rw [decide_eq_false_iff_not]
      simp only [quantile, hsort, List.length_cons, List.length_nil, absMat,
        matNeg]
      norm_num
    have hmem : 0 ∈ knnNeighbours (absMat matNeg) 1 1 := by decide
    refine ⟨by norm_num [matNeg],
      knn_graph_quantile_eq_false matNeg 1 true rfl (by decide) (by decide),
      ?_,
      knn_graph_eq_false matNeg 1 true rfl (by decide) (by decide),
      ?_⟩
    · simp only [quantileMasked, hbit, Bool.true_eq_false, false_and,
        if_false]
      norm_num [matNeg]
    · simp only [knnMasked, Bool.true_eq_false, false_and, if_false,
        if_pos hmem]
      norm_num [matNeg]

/-- Witness for C10: the quantile builder applied to the matrix with the
negative entry keeps only absolute values. -/
theorem C10_quantile_absolute_witness :
    knn_graph_quantile matNeg true 1 false =
      Except.ok (quantileMasked matNeg true 1) ∧
    (∀ i j, (quantileMasked matNeg true 1).entry i j = 0 ∨
      (quantileMasked matNeg true 1).entry i j = |matNeg.entry i j|) ∧
    (∀ i j, 0 ≤ (quantileMasked matNeg true 1).entry i j) := by
  have h := knn_graph_quantile_eq_false matNeg 1 true rfl (by decide) (by decide)
  obtain ⟨h1, h2, _⟩ := C10_quantile_absolute matNeg 1 true _ h
  exact ⟨h, h1, h2⟩

/-- Claim C3, counterexample: on the symmetric 3×3 matrix `matQ` with k = 1,
`self_loops=True`, `symmetric=False`, the entry `(0,2)` has absolute value
strictly below the `(n-k-1)/n` quantile of its own column (column 2), yet
the Quantile kNN Builder KEEPS it nonzero — because the code's broadcast
compares each entry against the quantile of the column indexed by the
entry's ROW, not its own column. -/
theorem C3_quantile_column_counterexample :
    (∀ i < 3, ∀ j < 3, matQ.entry i j = matQ.entry j i) ∧
    knn_graph_quantile matQ true 1 false =
      Except.ok (quantileMasked matQ true 1) ∧
    |matQ.entry 0 2| <
      quantile (colList (absMat matQ) 2) (((3 : ℚ) - 1 - 1) / 3) ∧
    (quantileMasked matQ true 1).entry 0 2 ≠ 0 := by
  have hsort0 : isort (fun a b => decide (a ≤ b)) [(9:ℚ), 1, 2] = [1, 2, 9] := by
    decide
  have hsort2 : isort (fun a b => decide (a ≤ b)) [(2:ℚ), 3, 9] = [2, 3, 9] := by
    decide
  have hcol0 : colList (absMat matQ) 0 = [9, 1, 2] := by decide
  have hcol2 : colList (absMat matQ) 2 = [2, 3, 9] := by decide
  refine ⟨by decide,
    knn_graph_quantile_eq_false matQ 1 true rfl (by decide) (by decide),
    ?_, ?_⟩
  · rw [hcol2]
    simp only [quantile, hsort2, List.length_cons, List.length_nil]
    norm_num [matQ]
  · have hbit : quantileMaskBit matQ 1 0 2 = false := by
      have hsym : isSymmetricOn matQ = true := by decide
      simp only [quantileMaskBit, hsym, if_true, hcol0]
      rw [decide_eq_false_iff_not]
      simp only [quantile, hsort0, List.length_cons, List.length_nil, absMat,
        matQ]
      norm_num
    simp only [quantileMasked, hbit, Bool.true_eq_false, false_and, if_false]
    norm_num [matQ]

/-- Claim C3 as amended: for a symmetric square matrix and valid `k`, the
Quantile kNN Builder with `self_loops=True`, `symmetric=False` zeroes
exactly those entries `(i,j)` whose absolute value is strictly below the
`(n-k-1)/n` quantile of column `i` of `|M|` — the column indexed by the
entry's ROW (equal, for symmetric `M`, to the quantile of row `i`) — and
keeps every other entry at its absolute value. -/
theorem C3_quantile_row_threshold (mat : Mat) (k : ℕ)
    (hsq : mat.rows = mat.cols)
    (hsym : ∀ i < mat.rows, ∀ j < mat.rows, mat.entry i j = mat.entry j i)
    (hk1 : 1 ≤ k) (hk2 : k < mat.rows) :
    ∃ r, knn_graph_quantile mat true k false = Except.ok r ∧
      ∀ i j, r.entry i j =
        if |mat.entry i j| < quantile (colList (absMat mat) i)
            (((mat.rows : ℚ) - (k : ℚ) - 1) / (mat.rows : ℚ)) then 0
        else |mat.entry i j| := by
  have hs : isSymmetricOn mat = true := by
    simp only [isSymmetricOn, List.all_eq_true, List.mem_range,
      decide_eq_true_eq]
    intro i hi j hj
    exact hsym i hi j (by omega)
  refine ⟨_, knn_graph_quantile_eq_false mat k true hsq hk1 hk2, ?_⟩
  intro i j
  simp only [quantileMasked, Bool.true_eq_false, false_and, if_false,
    quantileMaskBit, hs, if_true, absMat, decide_eq_true_eq]

/-- Witness for the amended C3 at the concrete symmetric matrix `matQ` with
k = 1. -/
theorem C3_quantile_row_threshold_witness :
    ∃ r, knn_graph_quantile matQ true 1 false = Except.ok r ∧
      ∀ i j, r.entry i j =
        if |matQ.entry i j| < quantile (colList (absMat matQ) i)
            (((matQ.rows : ℚ) - ((1:ℕ) : ℚ) - 1) / (matQ.rows : ℚ)) then 0
        else |matQ.entry i j| :=
  C3_quantile_row_threshold matQ 1 rfl (by decide) (by decide) (by decide)

/-- Claim C6: for a non-empty collection whose first connectome is square and
a valid `k`, the Group Graph Assembler computes the elementwise mean matrix,
passes it through the Degree-Rank kNN Builder with the given parameters, and
returns the graph object whose edge index enumerates exactly the nonzero
entries of the resulting matrix as `(row, col)` pairs, with a parallel
edge-weight sequence equal to the corresponding matrix values in the same
order. -/
theorem C6_group_graph (cs : List Mat) (c0 : Mat) (k : ℕ) (sl sym : Bool)
    (hh : cs.head? = some c0) (hsq : c0.rows = c0.cols)
    (hk1 : 1 ≤ k) (hk2 : k < c0.rows) :
    ∃ r, knn_graph (meanMat cs) k sl sym = Except.ok r ∧
      make_group_graph cs k sl sym = Except.ok (toGraphObject r) ∧
      (∀ i j, (meanMat cs).entry i j =
        (cs.map (fun c => c.entry i j)).sum / (cs.length : ℚ)) ∧
      (∀ p : ℕ × ℕ, p ∈ (toGraphObject r).1 ↔
        p.1 < r.rows ∧ p.2 < r.cols ∧ r.entry p.1 p.2 ≠ 0) ∧
      (toGraphObject r).2 = (toGraphObject r).1.map (fun p => r.entry p.1 p.2) := by
  have hhead : cs.headD defaultMat = c0 := by
    cases cs with
    | nil => simp at hh
    | cons a l =>
      simp only [List.head?_cons, Option.some.injEq] at hh
      simp [hh]
  have hrows : (meanMat cs).rows = c0.rows := by rw [← hhead]; rfl
  have hcols : (meanMat cs).cols = c0.cols := by rw [← hhead]; rfl
  obtain ⟨r, hr⟩ := knn_graph_exists (meanMat cs) k sl sym
    (by rw [hrows, hcols]; exact hsq) hk1 (by rw [hrows]; exact hk2)
  refine ⟨r, hr, ?_, fun i j => rfl, ?_, rfl⟩
  · unfold make_group_graph
    rw [if_neg (by rw [hhead]; simp [hsq]), hr]
    rfl
  · intro p
    simp only [toGraphObject, List.mem_filter, List.mem_flatMap,
      List.mem_map, List.mem_range, decide_eq_true_eq]
    constructor
    · rintro ⟨⟨i, hi, j, hj, rfl⟩, hne⟩
      exact ⟨hi, hj, hne⟩
    · rintro ⟨h1, h2, hne⟩
      exact ⟨⟨p.1, h1, p.2, h2, rfl⟩, hne⟩

/-- Witness for C6 at the one-element collection `[matG]` with k = 1. -/
theorem C6_group_graph_witness :
    ∃ r, knn_graph (meanMat [matG]) 1 false true = Except.ok r ∧
      make_group_graph [matG] 1 false true = Except.ok (toGraphObject r) ∧
      (∀ i j, (meanMat [matG]).entry i j =
        ([matG].map (fun c => c.entry i j)).sum / (([matG].length : ℕ) : ℚ)) ∧
      (∀ p : ℕ × ℕ, p ∈ (toGraphObject r).1 ↔
        p.1 < r.rows ∧ p.2 < r.cols ∧ r.entry p.1 p.2 ≠ 0) ∧
      (toGraphObject r).2 = (toGraphObject r).1.map (fun p => r.entry p.1 p.2) :=
  C6_group_graph [matG] matG 1 false true rfl rfl (by decide) (by decide)

end GraphConstruction
